import Mathlib

/-!
Verification of `MinimalChessEngine` (optimized_chess_engine, JavaScript).

The engine state is an `Int8Array(64)` board, an `Int32Array(1024)` move
history and a numeric `historyCount`.  We embed the board as `Fin 64 → Int`
(an `Int8Array` slot always holds a value in `[-128, 128)`; the well-formedness
predicate `int8Board` records this), the history as `Fin 1024 → Int`, and
`historyCount` as `Int` (it is a plain JS number and the code can drive it
negative).  Out-of-range typed-array stores are discarded and out-of-range
loads produce `undefined`, which the bitwise operators of `decodeMove` coerce
to `0`; `historyGet`/`historySet` reproduce exactly that behaviour.

Scores are JS numbers drawn from `Int ∪ {-Infinity, +Infinity}`; the type
`Score` models them, with `-Infinity` as `Score.negInf`.
-/

/-- JS numeric scores used by the search: integers plus the two infinities. -/
inductive Score where
  | negInf : Score
  | fin : Int → Score
  | posInf : Score
deriving DecidableEq, Repr

def Score.ble : Score → Score → Bool
  | .negInf, _ => true
  | .fin x, .fin y => x ≤ y
  | .fin _, .posInf => true
  | .posInf, .posInf => true
  | _, _ => false

set_option linter.unnecessarySeqFocus false

instance : LinearOrder Score where
  le a b := Score.ble a b = true
  le_refl a := by cases a <;> simp [Score.ble]
  le_trans a b c := by cases a <;> cases b <;> cases c <;> simp [Score.ble] <;> omega
  le_antisymm a b := by cases a <;> cases b <;> simp [Score.ble] <;> omega
  le_total a b := by cases a <;> cases b <;> simp [Score.ble] <;> omega
  decidableLE a b := inferInstanceAs (Decidable (Score.ble a b = true))

theorem Score.le_def (a b : Score) : (a ≤ b) ↔ Score.ble a b = true := Iff.rfl

instance Score.decLE : ∀ a b : Score, Decidable (a ≤ b) := fun a b =>
  inferInstanceAs (Decidable (Score.ble a b = true))

instance Score.decLT : ∀ a b : Score, Decidable (a < b) := fun a b =>
  decidable_of_iff (¬ b ≤ a) not_le

/-- JS unary negation on scores: `-(-Infinity) = Infinity` and so on. -/
def Score.neg : Score → Score
  | .negInf => .posInf
  | .fin x => .fin (-x)
  | .posInf => .negInf

instance : Neg Score := ⟨Score.neg⟩

theorem Score.neg_fin (x : Int) : -(Score.fin x) = Score.fin (-x) := rfl
theorem Score.neg_negInf_eq : -Score.negInf = Score.posInf := rfl
theorem Score.neg_posInf_eq : -Score.posInf = Score.negInf := rfl

theorem Score.neg_neg (a : Score) : - -a = a := by
  cases a <;> simp [Score.neg_fin, Score.neg_negInf_eq, Score.neg_posInf_eq]

theorem Score.neg_le_neg_iff (a b : Score) : -a ≤ -b ↔ b ≤ a := by
  cases a <;> cases b <;>
    simp [Score.neg_fin, Score.neg_negInf_eq, Score.neg_posInf_eq, Score.le_def, Score.ble]

theorem Score.neg_lt_neg_iff (a b : Score) : -a < -b ↔ b < a := by
  rw [lt_iff_not_le, lt_iff_not_le, Score.neg_le_neg_iff]

theorem Score.negInf_le (a : Score) : Score.negInf ≤ a := by
  cases a <;> simp [Score.le_def, Score.ble]

theorem Score.le_posInf (a : Score) : a ≤ Score.posInf := by
  cases a <;> simp [Score.le_def, Score.ble]

theorem Score.le_negInf_iff (a : Score) : a ≤ Score.negInf ↔ a = Score.negInf := by
  cases a <;> simp [Score.le_def, Score.ble]

theorem Score.posInf_le_iff (a : Score) : Score.posInf ≤ a ↔ a = Score.posInf := by
  cases a <;> simp [Score.le_def, Score.ble]

theorem Score.max_negInf (a : Score) : max a Score.negInf = a :=
  max_eq_left (Score.negInf_le a)

theorem Score.negInf_max (a : Score) : max Score.negInf a = a :=
  max_eq_right (Score.negInf_le a)

/-! ## Engine state and primitive operations -/

/-- The 64 cells of `this.board` (`Int8Array(64)`), in index order.  Every
board arising in this development has length 64 (recorded by `wfBoard`). -/
abbrev Board := List Int

/-- The mutable state of `MinimalChessEngine`: `this.board` (`Int8Array(64)`),
`this.moveHistory` (`Int32Array(1024)`) and `this.historyCount`. -/
structure Engine where
  board : Board
  moveHistory : Fin 1024 → Int
  historyCount : Int

/-- Source `isWhite(piece)`: `piece >= 8`. -/
def isWhite (piece : Int) : Bool := decide (8 ≤ piece)

/-- Source `getPieceType(piece)`: `piece & 7` (low three bits, i.e. mod 8). -/
def getPieceType (piece : Int) : Int := piece % 8

/-- Source `isValidSquare(square)`: `square >= 0 && square < 64`. -/
def isValidSquare (square : Int) : Bool := decide (0 ≤ square ∧ square < 64)

/-- Read `this.board[i]`.  An out-of-range read of a typed array yields
`undefined`, which every consumer in the source (truthiness tests, bitwise
operators, comparisons against piece codes) treats exactly as it treats `0`. -/
def boardGet (b : Board) (i : Int) : Int :=
  if 0 ≤ i then b.getD i.toNat 0 else 0

/-- Write `this.board[i] = v`; a store at an out-of-range index of a typed
array is discarded (`List.set` discards stores beyond the length). -/
def boardSet (b : Board) (i : Int) (v : Int) : Board :=
  if 0 ≤ i then b.set i.toNat v else b

/-- Read `this.moveHistory[i]`.  An out-of-range read yields `undefined`,
which the bitwise operators in `decodeMove` coerce to `0`. -/
def historyGet (h : Fin 1024 → Int) (i : Int) : Int :=
  if hh : 0 ≤ i ∧ i < 1024 then h ⟨i.toNat, by omega⟩ else 0

/-- Write `this.moveHistory[i] = v`; an out-of-range store is discarded. -/
def historySet (h : Fin 1024 → Int) (i : Int) (v : Int) : Fin 1024 → Int :=
  fun j => if (j : Int) = i then v else h j

/-- Storing into an `Int8Array` slot truncates to a signed 8-bit value. -/
def toInt8 (v : Int) : Int := (v + 128) % 256 - 128

/-- Source `encodeMove(from, to)`: `(from) | (to << 6) | (this.board[to] << 12)`.
For `0 ≤ from, to < 64` the three fields occupy disjoint bit ranges, so the
bitwise ors are exactly this arithmetic. -/
def encodeMove (b : Board) (square dest : Int) : Int :=
  square + 64 * dest + 4096 * boardGet b dest

/-- Source `decodeMove(move)`: `{from: move & 0x3F, to: (move >> 6) & 0x3F,
captured: move >> 12}` (JS `>>` is an arithmetic shift, i.e. floor division). -/
def decodeMove (move : Int) : Int × Int × Int :=
  (move % 64, (move.fdiv 64) % 64, move.fdiv 4096)

/-- The board update performed by `makeMove`:
`this.board[to] = this.board[from]; this.board[from] = 0;`. -/
def makeMoveB (b : Board) (move : Int) : Board :=
  let d := decodeMove move
  boardSet (boardSet b d.2.1 (boardGet b d.1)) d.1 0

/-- Source `makeMove(move)`. -/
def makeMove (s : Engine) (move : Int) : Engine :=
  { board := makeMoveB s.board move
    moveHistory := historySet s.moveHistory s.historyCount move
    historyCount := s.historyCount + 1 }

/-- The board update performed by `unmakeMove`:
`this.board[from] = this.board[to]; this.board[to] = captured;`. -/
def unmakeMoveB (b : Board) (move : Int) : Board :=
  let d := decodeMove move
  boardSet (boardSet b d.1 (boardGet b d.2.1)) d.2.1 (toInt8 d.2.2)

/-- Source `unmakeMove()`: pops `moveHistory[--historyCount]` and reverses the board
update.  There is no underflow check. -/
def unmakeMove (s : Engine) : Engine :=
  let hc := s.historyCount - 1
  let move := historyGet s.moveHistory hc
  { board := unmakeMoveB s.board move
    moveHistory := s.moveHistory
    historyCount := hc }

/-! ## Move generation -/

/-- Source `isWhiteTurn`: `(this.historyCount % 2) === 0`; JS `%` is the truncated
remainder, `Int.tmod`. -/
def isWhiteTurn (hc : Int) : Bool := hc.tmod 2 == 0

def knightOffsets : List Int := [-17, -15, -10, -6, 6, 10, 15, 17]
def kingOffsets : List Int := [-9, -8, -7, -1, 1, 7, 8, 9]
def bishopDirs : List Int := [-9, -7, 7, 9]
def rookDirs : List Int := [-8, -1, 1, 8]

/-- Source `generatePawnMoves(square)`. -/
def generatePawnMoves (b : Board) (square : Nat) : List Int :=
  let piece := boardGet b square
  let isW := isWhite piece
  let direction : Int := if isW then -8 else 8
  let startRank : Nat := if isW then 6 else 1
  let dest1 : Int := square + direction
  let forward :=
    if isValidSquare dest1 && (boardGet b dest1 == 0) then
      encodeMove b square dest1 ::
        (if square / 8 == startRank && (boardGet b (square + 2 * direction) == 0) then
          [encodeMove b square (square + 2 * direction)]
        else [])
    else []
  let captures := [direction - 1, direction + 1].flatMap fun offset =>
    let dest : Int := square + offset
    if isValidSquare dest then
      if ((dest % 8) - ((square : Int) % 8)).natAbs == 1 then
        let target := boardGet b dest
        if target != 0 && isWhite target != isW then [encodeMove b square dest] else []
      else []
    else []
  forward ++ captures

/-- Source `generateKnightMoves(square)`. -/
def generateKnightMoves (b : Board) (square : Nat) : List Int :=
  let piece := boardGet b square
  knightOffsets.flatMap fun offset =>
    let dest : Int := square + offset
    if isValidSquare dest then
      if (dest / 8 - (square : Int) / 8).natAbs + (dest % 8 - (square : Int) % 8).natAbs == 3 then
        let target := boardGet b dest
        if target == 0 || isWhite target != isWhite piece then [encodeMove b square dest] else []
      else []
    else []

/-- Source `generateKingMoves(square)`. -/
def generateKingMoves (b : Board) (square : Nat) : List Int :=
  let piece := boardGet b square
  kingOffsets.flatMap fun offset =>
    let dest : Int := square + offset
    if isValidSquare dest then
      if 1 < (dest / 8 - (square : Int) / 8).natAbs ∨ 1 < (dest % 8 - (square : Int) % 8).natAbs then
        []
      else
        let target := boardGet b dest
        if target == 0 || isWhite target != isWhite piece then [encodeMove b square dest] else []
    else []

/-- The `while (this.isValidSquare(dest))` loop of `generateSlidingMoves`,
with enough fuel: each step moves `dest` by the fixed nonzero `dir`, so at
most 64 iterations see a valid square. -/
def generateSlidingMovesAux (b : Board) (square : Nat) (dir : Int) (piece : Int) :
    Nat → Int → List Int
  | 0, _ => []
  | fuel + 1, dest =>
    if isValidSquare dest then
      if 7 < (dest / 8 - (square : Int) / 8).natAbs ∨ 7 < (dest % 8 - (square : Int) % 8).natAbs then
        []
      else
        let target := boardGet b dest
        if target == 0 then
          encodeMove b square dest :: generateSlidingMovesAux b square dir piece fuel (dest + dir)
        else if isWhite target != isWhite piece then [encodeMove b square dest]
        else []
    else []

/-- Source `generateSlidingMoves(square, directions)`. -/
def generateSlidingMoves (b : Board) (square : Nat) (directions : List Int) : List Int :=
  let piece := boardGet b square
  directions.flatMap fun dir => generateSlidingMovesAux b square dir piece 64 (square + dir)

/-- The body of `generateMoves()` as a function of the board and the
side-to-move flag. -/
def generateMovesB (b : Board) (whiteTurn : Bool) : List Int :=
  (List.range 64).flatMap fun square =>
    let piece := boardGet b square
    if piece == 0 then []
    else if isWhite piece != whiteTurn then []
    else
      match (getPieceType piece).toNat with
      | 1 => generatePawnMoves b square
      | 2 => generateKnightMoves b square
      | 3 => generateSlidingMoves b square bishopDirs
      | 4 => generateSlidingMoves b square rookDirs
      | 5 => generateSlidingMoves b square (bishopDirs ++ rookDirs)
      | 6 => generateKingMoves b square
      | _ => []

/-- Source `generateMoves()`. -/
def generateMoves (s : Engine) : List Int :=
  generateMovesB s.board (isWhiteTurn s.historyCount)

/-! ## Evaluation -/

/-- Source `this.pieceValues = [0, 100, 320, 330, 500, 900, 20000]`. -/
def pieceValues (t : Int) : Int :=
  if t = 1 then 100 else if t = 2 then 320 else if t = 3 then 330
  else if t = 4 then 500 else if t = 5 then 900 else if t = 6 then 20000 else 0

/-- Source `this.centerSquares = new Set([27, 28, 35, 36])`. -/
def centerSquares : List Nat := [27, 28, 35, 36]

/-- The body of `evaluate()` as a function of the board and history count. -/
def evaluateB (b : Board) (hc : Int) : Int :=
  let score := (List.range 64).foldl
    (fun (acc : Int) (square : Nat) =>
      let piece := boardGet b square
      if piece == 0 then acc
      else
        let value := pieceValues (getPieceType piece) +
          (if square ∈ centerSquares then 20 else 0)
        acc + (if isWhite piece then value else -value))
    0
  if isWhiteTurn hc then score else -score

/-- Source `evaluate()`. -/
def evaluate (s : Engine) : Int := evaluateB s.board s.historyCount

/-! ## Search -/

/-- The move loop of `search`, parameterised by the recursive call `sub` at
the next-lower depth.  `if (score >= beta) return beta;` then
`if (score > bestScore) { bestScore = score; alpha = max(alpha, score); }`. -/
def searchGo (sub : Score → Score → Engine → Score × Engine) :
    List Int → Score → Score → Score → Engine → Score × Engine
  | [], _, _, bestScore, s => (bestScore, s)
  | move :: rest, alpha, beta, bestScore, s =>
    let s1 := makeMove s move
    let r := sub (-beta) (-alpha) s1
    let score := -r.1
    let s2 := unmakeMove r.2
    if beta ≤ score then (beta, s2)
    else if bestScore < score then searchGo sub rest (max alpha score) beta score s2
    else searchGo sub rest alpha beta bestScore s2

/-- Source `search(depth, alpha, beta)`; the returned `Engine` is the state of
`this` when the call returns. -/
def search : Nat → Score → Score → Engine → Score × Engine
  | 0, _, _, s => (Score.fin (evaluate s), s)
  | depth + 1, alpha, beta, s =>
    searchGo (search depth) (generateMoves s) alpha beta Score.negInf s

/-- Modelled from the spec: the inner loop of a brute-force full-width
negamax with no pruning over the same move generator and evaluator
(the comparison point for search correctness). -/
def negamaxGo (sub : Board → Int → Score) (hc : Int) (b : Board) :
    List Int → Score → Score
  | [], best => best
  | move :: rest, best =>
    negamaxGo sub hc b rest (max best (-(sub (makeMoveB b move) (hc + 1))))

/-- Modelled from the spec: brute-force full-width negamax of a given depth
with no pruning, over the same move generator and evaluator. -/
def negamax : Nat → Board → Int → Score
  | 0, b, hc => Score.fin (evaluateB b hc)
  | depth + 1, b, hc =>
    negamaxGo (negamax depth) hc b (generateMovesB b (isWhiteTurn hc)) Score.negInf

/-! ## Iterative deepening (`getBestMove`) -/

/-- The root move loop of `getBestMove` at one depth:
`score = -this.search(depth - 1, -Infinity, Infinity)` and
`if (score > bestScore) { bestScore = score; bestMove = move; }`. -/
def getBestMoveGo (depth : Nat) :
    List Int → Option Int → Score → Engine → Option Int × Score × Engine
  | [], bestMove, bestScore, s => (bestMove, bestScore, s)
  | move :: rest, bestMove, bestScore, s =>
    let s1 := makeMove s move
    let r := search (depth - 1) Score.negInf Score.posInf s1
    let score := -r.1
    let s2 := unmakeMove r.2
    if bestScore < score then getBestMoveGo depth rest (some move) score s2
    else getBestMoveGo depth rest bestMove bestScore s2

/-- The `for (depth = 1; depth <= 4; depth++)` loop; the wall-clock test
`Date.now() - startTime > 9800` at the top of each iteration is abstracted
as the oracle `timeUp`.  Note that `bestMove`/`bestScore` carry over from one
depth to the next. -/
def getBestMoveLoop (timeUp : Nat → Bool) :
    List Nat → Option Int → Score → Engine → Option Int × Score × Engine
  | [], bestMove, bestScore, s => (bestMove, bestScore, s)
  | depth :: rest, bestMove, bestScore, s =>
    if timeUp depth then (bestMove, bestScore, s)
    else
      let r := getBestMoveGo depth (generateMoves s) bestMove bestScore s
      getBestMoveLoop timeUp rest r.1 r.2.1 r.2.2

/-- Source `getBestMove()`: returns the chosen move together with the state of
`this` on return. -/
def getBestMove (timeUp : Nat → Bool) (s : Engine) : Option Int × Engine :=
  let r := getBestMoveLoop timeUp [1, 2, 3, 4] none Score.negInf s
  (r.1, r.2.2)

/-! ## Initial position and reachability -/

/-- The board set up by `setupBoard()`: black back rank `RNBQKBNR` on squares
0–7, black pawns on 8–15, white pawns (`+8`) on 48–55, white back rank on
56–63. -/
def initialBoard : Board :=
  [4, 2, 3, 5, 6, 3, 2, 4,
   1, 1, 1, 1, 1, 1, 1, 1,
   0, 0, 0, 0, 0, 0, 0, 0,
   0, 0, 0, 0, 0, 0, 0, 0,
   0, 0, 0, 0, 0, 0, 0, 0,
   0, 0, 0, 0, 0, 0, 0, 0,
   9, 9, 9, 9, 9, 9, 9, 9,
   12, 10, 11, 13, 14, 11, 10, 12]

/-- A freshly constructed engine: zeroed typed arrays, `historyCount = 0`,
then `setupBoard()`. -/
def initialEngine : Engine :=
  { board := initialBoard, moveHistory := fun _ => 0, historyCount := 0 }

/-- Positions reachable from the initial engine by applying moves produced by
the move generator. -/
inductive Reachable : Engine → Prop
  | init : Reachable initialEngine
  | step (s : Engine) (move : Int) : Reachable s → move ∈ generateMoves s →
      Reachable (makeMove s move)

/-! ## Basic facts about the primitive operations -/

/-- Every cell of an `Int8Array` holds a value in `[-128, 128)`. -/
def int8B (b : Board) : Prop := ∀ v ∈ b, -128 ≤ v ∧ v < 128

/-- A move as produced by `encodeMove` in the position it was generated in:
source and destination in range, captured field equal to the piece currently
on the destination square. -/
def GoodMove (b : Board) (m : Int) : Prop :=
  ∃ f t : Nat, f < 64 ∧ t < 64 ∧ m = (f : Int) + 64 * t + 4096 * boardGet b t

theorem toInt8_eq_self {v : Int} (h0 : -128 ≤ v) (h1 : v < 128) : toInt8 v = v := by
  unfold toInt8; omega

theorem length_boardSet (b : Board) (i v : Int) :
    (boardSet b i v).length = b.length := by
  unfold boardSet; split <;> simp

theorem mem_of_getElemQ {l : List Int} {i : Nat} {a : Int} (h : l[i]? = some a) : a ∈ l := by
  obtain ⟨hlt, rfl⟩ := List.getElem?_eq_some.mp h
  exact List.getElem_mem hlt

theorem int8B_boardGet {b : Board} (h8 : int8B b) (i : Int) :
    -128 ≤ boardGet b i ∧ boardGet b i < 128 := by
  unfold boardGet
  split
  · rw [List.getD_eq_getElem?_getD]
    cases h : b[i.toNat]? with
    | none => simp
    | some v => simpa using h8 v (mem_of_getElemQ h)
  · omega

theorem int8B_boardSet {b : Board} (h8 : int8B b) {v : Int}
    (hv0 : -128 ≤ v) (hv1 : v < 128) (i : Int) : int8B (boardSet b i v) := by
  intro x hx
  unfold boardSet at hx
  split at hx
  · rcases List.mem_or_eq_of_mem_set hx with h | h
    · exact h8 x h
    · omega
  · exact h8 x hx

theorem boardGet_boardSet_self (b : Board) (i v : Int)
    (h0 : 0 ≤ i) (h1 : i < 64) (hb : b.length = 64) :
    boardGet (boardSet b i v) i = v := by
  unfold boardGet boardSet
  rw [if_pos h0, if_pos h0, List.getD_eq_getElem?_getD,
    List.getElem?_set_self (by omega)]
  rfl

theorem boardGet_boardSet_ne (b : Board) (i j v : Int) (hne : i ≠ j) :
    boardGet (boardSet b i v) j = boardGet b j := by
  unfold boardGet boardSet
  by_cases hi : 0 ≤ i
  · rw [if_pos hi]
    by_cases hj : 0 ≤ j
    · rw [if_pos hj, if_pos hj, List.getD_eq_getElem?_getD,
        List.getD_eq_getElem?_getD, List.getElem?_set_ne (by omega)]
    · rw [if_neg hj, if_neg hj]
  · rw [if_neg hi]

theorem boardSet_boardGet_self (b : Board) (i : Int) (h0 : 0 ≤ i) :
    boardSet b i (boardGet b i) = b := by
  unfold boardGet boardSet
  rw [if_pos h0, if_pos h0]
  by_cases hlt : i.toNat < b.length
  · apply List.ext_getElem?
    intro n
    by_cases hn : n = i.toNat
    · subst hn
      rw [List.getElem?_set_self hlt, List.getD_eq_getElem?_getD,
        List.getElem?_eq_getElem hlt]
      rfl
    · rw [List.getElem?_set_ne (by omega)]
  · exact List.set_eq_of_length_le (by omega)

theorem historyGet_historySet_self (h : Fin 1024 → Int) (i v : Int)
    (h0 : 0 ≤ i) (h1 : i < 1024) : historyGet (historySet h i v) i = v := by
  unfold historyGet historySet
  rw [dif_pos ⟨h0, h1⟩]
  simp [Int.toNat_of_nonneg h0]

theorem historyGet_congr_low (h h' : Fin 1024 → Int) (i : Int)
    (hlow : ∀ j : Fin 1024, (j : Int) ≤ i → h' j = h j) (_h1 : i < 1024) :
    historyGet h' i = historyGet h i := by
  unfold historyGet
  split
  · next hh => exact hlow _ (by simp [Int.toNat_of_nonneg hh.1])
  · rfl

theorem historySet_low (h : Fin 1024 → Int) (i v : Int) (j : Fin 1024)
    (hj : (j : Int) < i) : historySet h i v j = h j := by
  unfold historySet
  rw [if_neg (by omega)]

theorem boardSet_boardSet_self (b : Board) (i v w : Int) :
    boardSet (boardSet b i v) i w = boardSet b i w := by
  unfold boardSet
  split
  · simp [List.set_set]
  · rfl

theorem board_ext {b₁ b₂ : Board} (hl : b₁.length = b₂.length)
    (h : ∀ i : Int, boardGet b₁ i = boardGet b₂ i) : b₁ = b₂ := by
  apply List.ext_getElem?
  intro n
  by_cases hn : n < b₁.length
  · have hn' : n < b₂.length := by omega
    rw [List.getElem?_eq_getElem hn, List.getElem?_eq_getElem hn']
    have := h n
    unfold boardGet at this
    rw [if_pos (by omega)] at this
    simpa [List.getD_eq_getElem?_getD, List.getElem?_eq_getElem, hn, hn',
      Int.toNat_natCast] using this
  · rw [List.getElem?_eq_none (by omega), List.getElem?_eq_none (by omega)]

theorem decodeMove_encode (f t : Nat) (c : Int) (hf : f < 64) (ht : t < 64) :
    decodeMove ((f : Int) + 64 * t + 4096 * c) = ((f : Int), (t : Int), c) := by
  unfold decodeMove
  rw [Int.fdiv_eq_ediv _ (by norm_num), Int.fdiv_eq_ediv _ (by norm_num)]
  simp only [Prod.mk.injEq]
  refine ⟨?_, ?_, ?_⟩ <;> omega

theorem goodMove_encodeMove (b : Board) (sq : Nat) (dest : Int)
    (hsq : sq < 64) (h0 : 0 ≤ dest) (h1 : dest < 64) :
    GoodMove b (encodeMove b sq dest) := by
  refine ⟨sq, dest.toNat, hsq, by omega, ?_⟩
  simp [encodeMove, Int.toNat_of_nonneg h0]

theorem isValidSquare_iff (i : Int) : isValidSquare i = true ↔ 0 ≤ i ∧ i < 64 := by
  simp [isValidSquare]

theorem mem_ite_elim {α : Type} {c : Prop} [Decidable c] {l₁ l₂ : List α} {m : α}
    (h : m ∈ (if c then l₁ else l₂)) : (c ∧ m ∈ l₁) ∨ (¬c ∧ m ∈ l₂) := by
  split at h
  · next hc => exact Or.inl ⟨hc, h⟩
  · next hc => exact Or.inr ⟨hc, h⟩

theorem goodMove_pawn {b : Board} {sq : Nat} {m : Int} (hsq : sq < 64)
    (h : m ∈ generatePawnMoves b sq) : GoodMove b m := by
  unfold generatePawnMoves at h
  dsimp only at h
  rcases List.mem_append.mp h with h | h
  · rcases mem_ite_elim h with ⟨hc, h⟩ | ⟨-, h⟩
    · rw [Bool.and_eq_true, isValidSquare_iff] at hc
      rcases List.mem_cons.mp h with rfl | h
      · exact goodMove_encodeMove _ _ _ hsq hc.1.1 hc.1.2
      · rcases mem_ite_elim h with ⟨hc2, h⟩ | ⟨-, h⟩
        · rcases List.mem_cons.mp h with rfl | h
          · rw [Bool.and_eq_true] at hc2
            have hrank := hc2.1
            cases hw : isWhite (boardGet b (sq : Int)) <;>
              simp only [hw, Bool.false_eq_true, eq_self_iff_true, if_true, if_false,
                beq_iff_eq] at hrank ⊢ <;>
              exact goodMove_encodeMove _ _ _ hsq (by omega) (by omega)
          · simp at h
        · simp at h
    · simp at h
  · rcases List.mem_flatMap.mp h with ⟨off, -, h⟩
    rcases mem_ite_elim h with ⟨hv, h⟩ | ⟨-, h⟩
    · rw [isValidSquare_iff] at hv
      rcases mem_ite_elim h with ⟨-, h⟩ | ⟨-, h⟩
      · rcases mem_ite_elim h with ⟨-, h⟩ | ⟨-, h⟩
        · rcases List.mem_cons.mp h with rfl | h
          · exact goodMove_encodeMove _ _ _ hsq hv.1 hv.2
          · simp at h
        · simp at h
      · simp at h
    · simp at h

theorem goodMove_knight {b : Board} {sq : Nat} {m : Int} (hsq : sq < 64)
    (h : m ∈ generateKnightMoves b sq) : GoodMove b m := by
  unfold generateKnightMoves at h
  dsimp only at h
  rcases List.mem_flatMap.mp h with ⟨off, -, h⟩
  rcases mem_ite_elim h with ⟨hv, h⟩ | ⟨-, h⟩
  · rw [isValidSquare_iff] at hv
    rcases mem_ite_elim h with ⟨-, h⟩ | ⟨-, h⟩
    · rcases mem_ite_elim h with ⟨-, h⟩ | ⟨-, h⟩
      · rcases List.mem_cons.mp h with rfl | h
        · exact goodMove_encodeMove _ _ _ hsq hv.1 hv.2
        · simp at h
      · simp at h
    · simp at h
  · simp at h

theorem goodMove_king {b : Board} {sq : Nat} {m : Int} (hsq : sq < 64)
    (h : m ∈ generateKingMoves b sq) : GoodMove b m := by
  unfold generateKingMoves at h
  dsimp only at h
  rcases List.mem_flatMap.mp h with ⟨off, -, h⟩
  rcases mem_ite_elim h with ⟨hv, h⟩ | ⟨-, h⟩
  · rw [isValidSquare_iff] at hv
    rcases mem_ite_elim h with ⟨-, h⟩ | ⟨-, h⟩
    · simp at h
    · rcases mem_ite_elim h with ⟨-, h⟩ | ⟨-, h⟩
      · rcases List.mem_cons.mp h with rfl | h
        · exact goodMove_encodeMove _ _ _ hsq hv.1 hv.2
        · simp at h
      · simp at h
  · simp at h

theorem goodMove_slidingAux {b : Board} {sq : Nat} {dir piece m : Int} (hsq : sq < 64) :
    ∀ {fuel : Nat} {dest : Int}, m ∈ generateSlidingMovesAux b sq dir piece fuel dest →
      GoodMove b m := by
  intro fuel
  induction fuel with
  | zero => intro dest h; simp [generateSlidingMovesAux] at h
  | succ fuel ih =>
    intro dest h
    unfold generateSlidingMovesAux at h
    dsimp only at h
    rcases mem_ite_elim h with ⟨hv, h⟩ | ⟨-, h⟩
    · rw [isValidSquare_iff] at hv
      rcases mem_ite_elim h with ⟨-, h⟩ | ⟨-, h⟩
      · simp at h
      · rcases mem_ite_elim h with ⟨-, h⟩ | ⟨-, h⟩
        · rcases List.mem_cons.mp h with rfl | h
          · exact goodMove_encodeMove _ _ _ hsq hv.1 hv.2
          · exact ih h
        · rcases mem_ite_elim h with ⟨-, h⟩ | ⟨-, h⟩
          · rcases List.mem_cons.mp h with rfl | h
            · exact goodMove_encodeMove _ _ _ hsq hv.1 hv.2
            · simp at h
          · simp at h
    · simp at h

theorem goodMove_sliding {b : Board} {sq : Nat} {dirs : List Int} {m : Int} (hsq : sq < 64)
    (h : m ∈ generateSlidingMoves b sq dirs) : GoodMove b m := by
  unfold generateSlidingMoves at h
  dsimp only at h
  rcases List.mem_flatMap.mp h with ⟨dir, -, h⟩
  exact goodMove_slidingAux hsq h

/-- Every move produced by the generator is an `encodeMove` of in-range
squares with the captured field read from the current board. -/
theorem goodMove_generateMovesB {b : Board} {w : Bool} {m : Int}
    (h : m ∈ generateMovesB b w) : GoodMove b m := by
  unfold generateMovesB at h
  rcases List.mem_flatMap.mp h with ⟨sq, hsq, h⟩
  have hsq64 : sq < 64 := List.mem_range.mp hsq
  dsimp only at h
  rcases mem_ite_elim h with ⟨-, h⟩ | ⟨-, h⟩
  · simp at h
  · rcases mem_ite_elim h with ⟨-, h⟩ | ⟨-, h⟩
    · simp at h
    · rcases k : (getPieceType (boardGet b (sq : Int))).toNat with _ | _ | _ | _ | _ | _ | _ | n <;>
        rw [k] at h
      · simp at h
      · exact goodMove_pawn hsq64 h
      · exact goodMove_knight hsq64 h
      · exact goodMove_sliding hsq64 h
      · exact goodMove_sliding hsq64 h
      · exact goodMove_sliding hsq64 h
      · exact goodMove_king hsq64 h
      · simp at h

/-! ## Round-trip of `makeMove`/`unmakeMove` -/

theorem length_makeMoveB (b : Board) (m : Int) : (makeMoveB b m).length = b.length := by
  unfold makeMoveB
  rw [length_boardSet, length_boardSet]

theorem length_unmakeMoveB (b : Board) (m : Int) : (unmakeMoveB b m).length = b.length := by
  unfold unmakeMoveB
  rw [length_boardSet, length_boardSet]

theorem int8B_makeMoveB {b : Board} (h8 : int8B b) (m : Int) : int8B (makeMoveB b m) := by
  unfold makeMoveB
  have h1 := int8B_boardGet h8 (decodeMove m).1
  exact int8B_boardSet (int8B_boardSet h8 h1.1 h1.2 _) (by norm_num) (by norm_num) _

theorem toInt8_range (v : Int) : -128 ≤ toInt8 v ∧ toInt8 v < 128 := by
  unfold toInt8; omega

theorem int8B_unmakeMoveB {b : Board} (h8 : int8B b) (m : Int) : int8B (unmakeMoveB b m) := by
  unfold unmakeMoveB
  have h1 := int8B_boardGet h8 (decodeMove m).2.1
  have h2 := toInt8_range (decodeMove m).2.2
  exact int8B_boardSet (int8B_boardSet h8 h1.1 h1.2 _) h2.1 h2.2 _

/-- Applying and then un-applying a generator-produced move restores the
board exactly (board-level form). -/
theorem unmakeMoveB_makeMoveB {b : Board} {m : Int} (hb : b.length = 64)
    (h8 : int8B b) (hm : GoodMove b m) : unmakeMoveB (makeMoveB b m) m = b := by
  obtain ⟨f, t, hf, ht, rfl⟩ := hm
  have hdec := decodeMove_encode f t (boardGet b t) hf ht
  unfold makeMoveB unmakeMoveB
  rw [hdec]
  dsimp only
  have hc8 := int8B_boardGet h8 (t : Int)
  rw [toInt8_eq_self hc8.1 hc8.2]
  have hf8 := int8B_boardGet h8 (f : Int)
  by_cases hft : (f : Int) = t
  · rw [hft, boardSet_boardSet_self, boardSet_boardSet_self, boardSet_boardSet_self,
      boardSet_boardGet_self _ _ (by omega)]
  · have hbt : boardGet (boardSet (boardSet b (t : Int) (boardGet b f)) (f : Int) 0) t
        = boardGet b f := by
      rw [boardGet_boardSet_ne _ _ _ _ hft,
        boardGet_boardSet_self _ _ _ (by omega) (by omega) hb]
    rw [hbt]
    apply board_ext
    · rw [length_boardSet, length_boardSet, length_boardSet, length_boardSet]
    · intro i
      by_cases hit : i = t
      · subst hit
        rw [boardGet_boardSet_self _ _ _ (by omega) (by omega)
          (by rw [length_boardSet, length_boardSet, length_boardSet]; omega)]
      · rw [boardGet_boardSet_ne _ _ _ _ (fun h => hit h.symm)]
        by_cases hif : i = f
        · subst hif
          rw [boardGet_boardSet_self _ _ _ (by omega) (by omega)
            (by rw [length_boardSet, length_boardSet]; omega)]
        · rw [boardGet_boardSet_ne _ _ _ _ (fun h => hif h.symm),
            boardGet_boardSet_ne _ _ _ _ (fun h => hif h.symm),
            boardGet_boardSet_ne _ _ _ _ (fun h => hit h.symm)]

/-- If a state has the board and history count of `makeMove s m` and still
holds `m` in history slot `s.historyCount`, then `unmakeMove` brings the
board and history count back to those of `s`. -/
theorem unmake_restore {s : Engine} {m : Int} {u : Engine}
    (hb : u.board = makeMoveB s.board m)
    (hcnt : u.historyCount = s.historyCount + 1)
    (hh : historyGet u.moveHistory s.historyCount = m)
    (hlen : s.board.length = 64) (h8 : int8B s.board) (hm : GoodMove s.board m) :
    (unmakeMove u).board = s.board ∧
    (unmakeMove u).historyCount = s.historyCount ∧
    (unmakeMove u).moveHistory = u.moveHistory := by
  unfold unmakeMove
  refine ⟨?_, by dsimp only; omega, rfl⟩
  dsimp only
  rw [hcnt, show s.historyCount + 1 - 1 = s.historyCount by ring, hh, hb]
  exact unmakeMoveB_makeMoveB hlen h8 hm

/-! ## Infrastructure for the search correctness proof -/

theorem Score.le_neg_iff (a b : Score) : a ≤ -b ↔ b ≤ -a := by
  cases a <;> cases b <;>
    simp [Score.neg_fin, Score.neg_negInf_eq, Score.neg_posInf_eq, Score.le_def, Score.ble] <;>
    omega

theorem Score.neg_le_iff (a b : Score) : -a ≤ b ↔ -b ≤ a := by
  cases a <;> cases b <;>
    simp [Score.neg_fin, Score.neg_negInf_eq, Score.neg_posInf_eq, Score.le_def, Score.ble] <;>
    omega

theorem Score.lt_neg_iff (a b : Score) : a < -b ↔ b < -a := by
  rw [lt_iff_not_le, lt_iff_not_le]
  exact not_congr (Score.neg_le_iff b a)

theorem Score.neg_lt_iff (a b : Score) : -a < b ↔ -b < a := by
  rw [lt_iff_not_le, lt_iff_not_le]
  exact not_congr (Score.le_neg_iff b a)

/-- The value `max` folded over the negated full-width values of the moves of
a list — the quantity the negamax loop accumulates. -/
def movesVal (d : Nat) (b : Board) (hc : Int) (moves : List Int) : Score :=
  moves.foldr (fun m acc => max (-(negamax d (makeMoveB b m) (hc + 1))) acc) Score.negInf

theorem movesVal_nil (d : Nat) (b : Board) (hc : Int) : movesVal d b hc [] = Score.negInf := rfl

theorem movesVal_cons (d : Nat) (b : Board) (hc : Int) (m : Int) (rest : List Int) :
    movesVal d b hc (m :: rest) =
      max (-(negamax d (makeMoveB b m) (hc + 1))) (movesVal d b hc rest) := rfl

theorem negamaxGo_eq (sub : Board → Int → Score) (hc : Int) (b : Board) :
    ∀ (l : List Int) (best : Score),
      negamaxGo sub hc b l best =
        max best (l.foldr (fun m acc => max (-(sub (makeMoveB b m) (hc + 1))) acc)
          Score.negInf) := by
  intro l
  induction l with
  | nil => intro best; simp [negamaxGo, Score.max_negInf]
  | cons m rest ih =>
    intro best
    rw [negamaxGo, ih, List.foldr_cons, ← max_assoc]

theorem negamax_succ (d : Nat) (b : Board) (hc : Int) :
    negamax (d + 1) b hc = movesVal d b hc (generateMovesB b (isWhiteTurn hc)) := by
  rw [negamax, negamaxGo_eq, Score.negInf_max, movesVal]

/-- Well-formedness of an engine state for a search of the given depth: the
board is a 64-cell `Int8Array` image and the history stack has room for the
moves the search will push. -/
def WfState (s : Engine) (d : Nat) : Prop :=
  s.board.length = 64 ∧ int8B s.board ∧ 0 ≤ s.historyCount ∧ s.historyCount + d ≤ 1024

/-- Specification of one `search` call at depth `d`, used as the induction
hypothesis: the state is restored (board, history count, and all history
slots below the current one), and the returned score relates to the
brute-force negamax value in the classic fail-hard alpha-beta way. -/
def SearchSpec (d : Nat) : Prop :=
  ∀ (s : Engine) (alpha beta : Score), WfState s d → alpha < beta →
    (((search d alpha beta s).2.board = s.board ∧
      (search d alpha beta s).2.historyCount = s.historyCount ∧
      ∀ j : Fin 1024, (j : Int) < s.historyCount →
        (search d alpha beta s).2.moveHistory j = s.moveHistory j) ∧
     (negamax d s.board s.historyCount ≤ alpha → (search d alpha beta s).1 ≤ alpha) ∧
     (alpha < negamax d s.board s.historyCount → negamax d s.board s.historyCount < beta →
       (search d alpha beta s).1 = negamax d s.board s.historyCount) ∧
     (beta ≤ negamax d s.board s.historyCount → beta ≤ (search d alpha beta s).1))


theorem searchGo_spec (d : Nat) (IH : SearchSpec d) :
    ∀ (moves : List Int) (s : Engine) (alpha beta best : Score),
      (∀ m ∈ moves, GoodMove s.board m) →
      WfState s (d + 1) → alpha < beta → best < beta → best ≤ alpha →
      (((searchGo (search d) moves alpha beta best s).2.board = s.board ∧
        (searchGo (search d) moves alpha beta best s).2.historyCount = s.historyCount ∧
        ∀ j : Fin 1024, (j : Int) < s.historyCount →
          (searchGo (search d) moves alpha beta best s).2.moveHistory j = s.moveHistory j) ∧
       (beta ≤ max best (movesVal d s.board s.historyCount moves) →
         (searchGo (search d) moves alpha beta best s).1 = beta) ∧
       (alpha < max best (movesVal d s.board s.historyCount moves) →
         max best (movesVal d s.board s.historyCount moves) < beta →
         (searchGo (search d) moves alpha beta best s).1 =
           max best (movesVal d s.board s.historyCount moves)) ∧
       (max best (movesVal d s.board s.historyCount moves) ≤ alpha →
         best ≤ (searchGo (search d) moves alpha beta best s).1 ∧
         (searchGo (search d) moves alpha beta best s).1 ≤ alpha)) := by
  intro moves
  induction moves with
  | nil =>
    intro s alpha beta best hgood hwf hab hbb hba
    rw [movesVal_nil, Score.max_negInf]
    refine ⟨⟨rfl, rfl, fun j hj => rfl⟩, ?_, ?_, ?_⟩
    · intro h; exact absurd (lt_of_le_of_lt h hbb) (lt_irrefl _)
    · intro _ _; rfl
    · intro h; exact ⟨le_refl _, h⟩
  | cons m rest ihList =>
    intro s alpha beta best hgood hwf hab hbb hba
    obtain ⟨hlen, h8, hhc0, hhc1⟩ := hwf
    have hm : GoodMove s.board m := hgood m (List.mem_cons_self m rest)
    have hrest : ∀ m' ∈ rest, GoodMove s.board m' :=
      fun m' hm' => hgood m' (List.mem_cons_of_mem m hm')
    have hwf1 : WfState (makeMove s m) d := by
      refine ⟨?_, int8B_makeMoveB h8 m, ?_, ?_⟩
      · show (makeMoveB s.board m).length = 64
        rw [length_makeMoveB]; exact hlen
      · show (0 : Int) ≤ s.historyCount + 1; omega
      · show s.historyCount + 1 + (d : Int) ≤ 1024
        have : ((d : Int) + 1) = ((d + 1 : Nat) : Int) := by push_cast; ring
        omega
    have hba' : -beta < -alpha := (Score.neg_lt_neg_iff beta alpha).mpr hab
    obtain ⟨⟨hb2', hc2', hlow2'⟩, ihb1', ihb2', ihb3'⟩ :=
      IH (makeMove s m) (-beta) (-alpha) hwf1 hba'
    have hb2 : (search d (-beta) (-alpha) (makeMove s m)).2.board = makeMoveB s.board m := hb2'
    have hc2 : (search d (-beta) (-alpha) (makeMove s m)).2.historyCount =
        s.historyCount + 1 := hc2'
    have hlow2 : ∀ j : Fin 1024, (j : Int) < s.historyCount + 1 →
        (search d (-beta) (-alpha) (makeMove s m)).2.moveHistory j =
          historySet s.moveHistory s.historyCount m j := hlow2'
    have ihb1 : negamax d (makeMoveB s.board m) (s.historyCount + 1) ≤ -beta →
        (search d (-beta) (-alpha) (makeMove s m)).1 ≤ -beta := ihb1'
    have ihb2 : -beta < negamax d (makeMoveB s.board m) (s.historyCount + 1) →
        negamax d (makeMoveB s.board m) (s.historyCount + 1) < -alpha →
        (search d (-beta) (-alpha) (makeMove s m)).1 =
          negamax d (makeMoveB s.board m) (s.historyCount + 1) := ihb2'
    have ihb3 : -alpha ≤ negamax d (makeMoveB s.board m) (s.historyCount + 1) →
        -alpha ≤ (search d (-beta) (-alpha) (makeMove s m)).1 := ihb3'
    clear hb2' hc2' hlow2' ihb1' ihb2' ihb3'
    simp only [searchGo]
    rw [movesVal_cons]
    set r := search d (-beta) (-alpha) (makeMove s m) with hrdef
    set N1 := negamax d (makeMoveB s.board m) (s.historyCount + 1) with hN1
    set Vrest := movesVal d s.board s.historyCount rest with hVrest
    have hh : historyGet r.2.moveHistory s.historyCount = m := by
      rw [historyGet_congr_low (historySet s.moveHistory s.historyCount m) r.2.moveHistory
        s.historyCount (fun j hj => hlow2 j (by omega)) (by omega)]
      exact historyGet_historySet_self _ _ _ hhc0 (by omega)
    obtain ⟨hub, huc, huh⟩ :=
      unmake_restore (s := s) (m := m) (u := r.2) hb2 hc2 hh hlen h8 hm
    have hlowS2 : ∀ j : Fin 1024, (j : Int) < s.historyCount →
        (unmakeMove r.2).moveHistory j = s.moveHistory j := by
      intro j hj
      rw [huh, hlow2 j (by omega)]
      exact historySet_low _ _ _ j hj
    have hgood' : ∀ m' ∈ rest, GoodMove (unmakeMove r.2).board m' := by
      rw [hub]; exact hrest
    have hwf' : WfState (unmakeMove r.2) (d + 1) := by
      refine ⟨?_, ?_, ?_, ?_⟩
      · rw [hub]; exact hlen
      · rw [hub]; exact h8
      · rw [huc]; exact hhc0
      · rw [huc]; exact hhc1
    rcases le_or_lt N1 (-beta) with hA | hBC
    · -- child value at least beta: fail-high, return beta
      have hsc : beta ≤ -r.1 := (Score.le_neg_iff beta r.1).mpr (ihb1 hA)
      rw [if_pos hsc]
      have hbT : beta ≤ max best (max (-N1) Vrest) := by
        have h1 : beta ≤ -N1 := (Score.le_neg_iff beta N1).mpr hA
        exact le_trans h1 (le_trans (le_max_left _ _) (le_max_right _ _))
      refine ⟨⟨hub, huc, hlowS2⟩, ?_, ?_, ?_⟩
      · intro _; rfl
      · intro _ h2; exact absurd (lt_of_le_of_lt hbT h2) (lt_irrefl _)
      · intro h1; exact absurd (lt_of_lt_of_le hab (le_trans hbT h1)) (lt_irrefl _)
    rcases le_or_lt (-alpha) N1 with hC | hB
    · -- child value at most alpha: the score cannot raise alpha
      have hscle : -r.1 ≤ alpha := (Score.neg_le_iff r.1 alpha).mpr (ihb3 hC)
      have hn1le : -N1 ≤ alpha := (Score.neg_le_iff N1 alpha).mpr hC
      have hif1 : ¬ beta ≤ -r.1 := fun h => absurd hab (not_lt.mpr (le_trans h hscle))
      rw [if_neg hif1]
      by_cases hldr : best < -r.1
      · rw [if_pos hldr, max_eq_left hscle]
        obtain ⟨⟨rb, rc, rlow⟩, r1, r2, r3⟩ :=
          ihList (unmakeMove r.2) alpha beta (-r.1) hgood' hwf' hab
            (lt_of_le_of_lt hscle hab) hscle
        rw [hub] at rb r1 r2 r3
        rw [huc] at rc rlow r1 r2 r3
        rw [← hVrest] at r1 r2 r3
        refine ⟨⟨rb, rc, fun j hj => (rlow j hj).trans (hlowS2 j hj)⟩, ?_, ?_, ?_⟩
        · intro h1
          rcases le_max_iff.mp h1 with h | h
          · exact absurd (lt_of_le_of_lt h hbb) (lt_irrefl _)
          rcases le_max_iff.mp h with h | h
          · exact absurd (lt_of_le_of_lt h (lt_of_le_of_lt hn1le hab)) (lt_irrefl _)
          · exact r1 (le_trans h (le_max_right _ _))
        · intro h1 h2
          have hVgt : alpha < Vrest := by
            rcases lt_max_iff.mp h1 with h | h
            · exact absurd (lt_of_lt_of_le h hba) (lt_irrefl _)
            rcases lt_max_iff.mp h with h | h
            · exact absurd (lt_of_lt_of_le h hn1le) (lt_irrefl _)
            · exact h
          have hTeq : max best (max (-N1) Vrest) = Vrest := by
            rw [max_eq_right (le_trans hn1le (le_of_lt hVgt)),
              max_eq_right (le_trans hba (le_of_lt hVgt))]
          have hTeq' : max (-r.1) Vrest = Vrest :=
            max_eq_right (le_trans hscle (le_of_lt hVgt))
          rw [hTeq] at h2 ⊢
          rw [r2 (by rw [hTeq']; exact hVgt) (by rw [hTeq']; exact h2), hTeq']
        · intro h1
          have hVle : Vrest ≤ alpha :=
            le_trans (le_trans (le_max_right (-N1) _) (le_max_right best _)) h1
          have hfin := r3 (max_le hscle hVle)
          exact ⟨le_trans (le_of_lt hldr) hfin.1, hfin.2⟩
      · rw [if_neg hldr]
        obtain ⟨⟨rb, rc, rlow⟩, r1, r2, r3⟩ :=
          ihList (unmakeMove r.2) alpha beta best hgood' hwf' hab hbb hba
        rw [hub] at rb r1 r2 r3
        rw [huc] at rc rlow r1 r2 r3
        rw [← hVrest] at r1 r2 r3
        refine ⟨⟨rb, rc, fun j hj => (rlow j hj).trans (hlowS2 j hj)⟩, ?_, ?_, ?_⟩
        · intro h1
          rcases le_max_iff.mp h1 with h | h
          · exact absurd (lt_of_le_of_lt h hbb) (lt_irrefl _)
          rcases le_max_iff.mp h with h | h
          · exact absurd (lt_of_le_of_lt h (lt_of_le_of_lt hn1le hab)) (lt_irrefl _)
          · exact r1 (le_trans h (le_max_right _ _))
        · intro h1 h2
          have hVgt : alpha < Vrest := by
            rcases lt_max_iff.mp h1 with h | h
            · exact absurd (lt_of_lt_of_le h hba) (lt_irrefl _)
            rcases lt_max_iff.mp h with h | h
            · exact absurd (lt_of_lt_of_le h hn1le) (lt_irrefl _)
            · exact h
          have hTeq : max best (max (-N1) Vrest) = Vrest := by
            rw [max_eq_right (le_trans hn1le (le_of_lt hVgt)),
              max_eq_right (le_trans hba (le_of_lt hVgt))]
          have hTeq' : max best Vrest = Vrest :=
            max_eq_right (le_trans hba (le_of_lt hVgt))
          rw [hTeq] at h2 ⊢
          rw [r2 (by rw [hTeq']; exact hVgt) (by rw [hTeq']; exact h2), hTeq']
        · intro h1
          have hVle : Vrest ≤ alpha :=
            le_trans (le_trans (le_max_right (-N1) _) (le_max_right best _)) h1
          exact r3 (max_le hba hVle)
    · -- window straddles the child value: it is reproduced exactly
      have hr1 : r.1 = N1 := ihb2 hBC hB
      have han1 : alpha < -N1 := (Score.lt_neg_iff N1 alpha).mp hB
      have hn1b : -N1 < beta := (Score.neg_lt_iff N1 beta).mpr hBC
      have hif1 : ¬ beta ≤ -r.1 := by rw [hr1]; exact not_le.mpr hn1b
      have hldr : best < -r.1 := by rw [hr1]; exact lt_of_le_of_lt hba han1
      rw [if_neg hif1, if_pos hldr, hr1, max_eq_right (le_of_lt han1)]
      obtain ⟨⟨rb, rc, rlow⟩, r1, r2, r3⟩ :=
        ihList (unmakeMove r.2) (-N1) beta (-N1) hgood' hwf' hn1b hn1b (le_refl _)
      rw [hub] at rb r1 r2 r3
      rw [huc] at rc rlow r1 r2 r3
      rw [← hVrest] at r1 r2 r3
      have habs : max best (max (-N1) Vrest) = max (-N1) Vrest :=
        max_eq_right (le_trans hba (le_trans (le_of_lt han1) (le_max_left _ _)))
      refine ⟨⟨rb, rc, fun j hj => (rlow j hj).trans (hlowS2 j hj)⟩, ?_, ?_, ?_⟩
      · intro h1
        rw [habs] at h1
        exact r1 h1
      · intro h1 h2
        rw [habs] at h2 ⊢
        rcases lt_or_le (-N1) (max (-N1) Vrest) with hgt | hle
        · exact r2 hgt h2
        · have heq : max (-N1) Vrest = -N1 := le_antisymm hle (le_max_left _ _)
          have hfin := r3 (le_of_eq heq)
          rw [heq]
          exact le_antisymm hfin.2 hfin.1
      · intro h1
        rw [habs] at h1
        exact absurd (lt_of_lt_of_le han1 (le_trans (le_max_left _ _) h1)) (lt_irrefl _)

/-- Alpha-beta search at every depth satisfies the fail-hard specification
relative to brute-force negamax, and restores the externally visible state. -/
theorem search_spec : ∀ d : Nat, SearchSpec d := by
  intro d
  induction d with
  | zero =>
    intro s alpha beta hwf hab
    exact ⟨⟨rfl, rfl, fun j hj => rfl⟩, fun h => h, fun _ _ => rfl, fun h => h⟩
  | succ d ih =>
    intro s alpha beta hwf hab
    obtain ⟨hres, hb1, hb2, hb3⟩ :=
      searchGo_spec d ih (generateMoves s) s alpha beta Score.negInf
        (fun m hm => goodMove_generateMovesB hm) hwf hab
        (lt_of_le_of_lt (Score.negInf_le alpha) hab)
        (Score.negInf_le alpha)
    rw [Score.negInf_max] at hb1 hb2 hb3
    have hNeq : negamax (d + 1) s.board s.historyCount =
        movesVal d s.board s.historyCount (generateMoves s) :=
      negamax_succ d s.board s.historyCount
    refine ⟨hres, ?_, ?_, ?_⟩
    · intro h
      rw [hNeq] at h
      exact (hb3 h).2
    · intro h1 h2
      rw [hNeq] at h1 h2 ⊢
      exact hb2 h1 h2
    · intro h
      rw [hNeq] at h
      exact le_of_eq (hb1 h).symm

theorem negInf_lt_posInf : Score.negInf < Score.posInf := by
  rw [lt_iff_not_le]
  intro h
  exact absurd ((Score.posInf_le_iff _).mp h) (by intro h'; cases h')

/-- With the full window, alpha-beta search returns exactly the brute-force
negamax value. -/
theorem search_full_window (d : Nat) (s : Engine) (hwf : WfState s d) :
    (search d Score.negInf Score.posInf s).1 = negamax d s.board s.historyCount := by
  obtain ⟨-, hb1, hb2, hb3⟩ := search_spec d s Score.negInf Score.posInf hwf negInf_lt_posInf
  rcases le_or_lt (negamax d s.board s.historyCount) Score.negInf with h | h
  · have hN := (Score.le_negInf_iff _).mp h
    rw [hN]
    exact (Score.le_negInf_iff _).mp (hN ▸ hb1 h)
  · rcases le_or_lt Score.posInf (negamax d s.board s.historyCount) with h2 | h2
    · have hN := (Score.posInf_le_iff _).mp h2
      rw [hN]
      exact (Score.posInf_le_iff _).mp (hb3 h2)
    · exact hb2 h h2

/-! ## The root loop of `getBestMove` -/

/-- The pure fold that tracks the running best root move and score
(`if (score > bestScore) { bestScore = score; bestMove = move; }`). -/
def bestAcc : List (Int × Score) → Option Int → Score → Option Int × Score
  | [], bm, bs => (bm, bs)
  | (m, sc) :: rest, bm, bs =>
    if bs < sc then bestAcc rest (some m) sc else bestAcc rest bm bs

/-- The root `(move, score)` pairs one completed depth produces, with scores
given by the pure pruning-free negamax. -/
def rootPairs (depth : Nat) (b : Board) (hc : Int) : List (Int × Score) :=
  (generateMovesB b (isWhiteTurn hc)).map
    (fun m => (m, -(negamax (depth - 1) (makeMoveB b m) (hc + 1))))

/-- The concatenation of the root pairs of all depths the deepening loop
completes before the time check fires. -/
def completedPairs (timeUp : Nat → Bool) (b : Board) (hc : Int) : List Nat → List (Int × Score)
  | [] => []
  | depth :: rest =>
    if timeUp depth then []
    else rootPairs depth b hc ++ completedPairs timeUp b hc rest

theorem bestAcc_append (l1 l2 : List (Int × Score)) :
    ∀ (bm : Option Int) (bs : Score),
      bestAcc (l1 ++ l2) bm bs =
        bestAcc l2 (bestAcc l1 bm bs).1 (bestAcc l1 bm bs).2 := by
  induction l1 with
  | nil => intro bm bs; rfl
  | cons p rest ih =>
    intro bm bs
    obtain ⟨m, sc⟩ := p
    rw [List.cons_append]
    simp only [bestAcc]
    split <;> exact ih _ _

theorem getBestMoveGo_spec (depth : Nat) (hd : 1 ≤ depth) :
    ∀ (moves : List Int) (s : Engine) (bm : Option Int) (bs : Score),
      (∀ m ∈ moves, GoodMove s.board m) → WfState s depth →
      (((getBestMoveGo depth moves bm bs s).2.2.board = s.board ∧
        (getBestMoveGo depth moves bm bs s).2.2.historyCount = s.historyCount ∧
        ∀ j : Fin 1024, (j : Int) < s.historyCount →
          (getBestMoveGo depth moves bm bs s).2.2.moveHistory j = s.moveHistory j) ∧
       ((getBestMoveGo depth moves bm bs s).1, (getBestMoveGo depth moves bm bs s).2.1) =
         bestAcc (moves.map
           (fun m => (m, -(negamax (depth - 1) (makeMoveB s.board m) (s.historyCount + 1)))))
           bm bs) := by
  intro moves
  induction moves with
  | nil =>
    intro s bm bs hgood hwf
    exact ⟨⟨rfl, rfl, fun j hj => rfl⟩, rfl⟩
  | cons m rest ihList =>
    intro s bm bs hgood hwf
    obtain ⟨hlen, h8, hhc0, hhc1⟩ := hwf
    have hm : GoodMove s.board m := hgood m (List.mem_cons_self m rest)
    have hrest : ∀ m' ∈ rest, GoodMove s.board m' :=
      fun m' hm' => hgood m' (List.mem_cons_of_mem m hm')
    have hwf1 : WfState (makeMove s m) (depth - 1) := by
      refine ⟨?_, int8B_makeMoveB h8 m, ?_, ?_⟩
      · show (makeMoveB s.board m).length = 64
        rw [length_makeMoveB]; exact hlen
      · show (0 : Int) ≤ s.historyCount + 1; omega
      · show s.historyCount + 1 + ((depth - 1 : Nat) : Int) ≤ 1024
        have h1 : ((depth - 1 : Nat) : Int) = (depth : Int) - 1 := by
          have : 1 ≤ (depth : Int) := by exact_mod_cast hd
          push_cast [hd]; ring
        omega
    obtain ⟨⟨hb2', hc2', hlow2'⟩, -, -, -⟩ :=
      search_spec (depth - 1) (makeMove s m) Score.negInf Score.posInf hwf1 negInf_lt_posInf
    have hval' := search_full_window (depth - 1) (makeMove s m) hwf1
    have hb2 : (search (depth - 1) Score.negInf Score.posInf (makeMove s m)).2.board =
        makeMoveB s.board m := hb2'
    have hc2 : (search (depth - 1) Score.negInf Score.posInf (makeMove s m)).2.historyCount =
        s.historyCount + 1 := hc2'
    have hlow2 : ∀ j : Fin 1024, (j : Int) < s.historyCount + 1 →
        (search (depth - 1) Score.negInf Score.posInf (makeMove s m)).2.moveHistory j =
          historySet s.moveHistory s.historyCount m j := hlow2'
    have hval : (search (depth - 1) Score.negInf Score.posInf (makeMove s m)).1 =
        negamax (depth - 1) (makeMoveB s.board m) (s.historyCount + 1) := hval'
    clear hb2' hc2' hlow2' hval'
    simp only [getBestMoveGo]
    rw [List.map_cons]
    simp only [bestAcc]
    set r := search (depth - 1) Score.negInf Score.posInf (makeMove s m) with hrdef
    have hh : historyGet r.2.moveHistory s.historyCount = m := by
      rw [historyGet_congr_low (historySet s.moveHistory s.historyCount m) r.2.moveHistory
        s.historyCount (fun j hj => hlow2 j (by omega)) (by omega)]
      exact historyGet_historySet_self _ _ _ hhc0 (by omega)
    obtain ⟨hub, huc, huh⟩ :=
      unmake_restore (s := s) (m := m) (u := r.2) hb2 hc2 hh hlen h8 hm
    have hlowS2 : ∀ j : Fin 1024, (j : Int) < s.historyCount →
        (unmakeMove r.2).moveHistory j = s.moveHistory j := by
      intro j hj
      rw [huh, hlow2 j (by omega)]
      exact historySet_low _ _ _ j hj
    have hgood' : ∀ m' ∈ rest, GoodMove (unmakeMove r.2).board m' := by
      rw [hub]; exact hrest
    have hwf' : WfState (unmakeMove r.2) depth := by
      refine ⟨?_, ?_, ?_, ?_⟩
      · rw [hub]; exact hlen
      · rw [hub]; exact h8
      · rw [huc]; exact hhc0
      · rw [huc]; exact hhc1
    rw [hval]
    split
    · obtain ⟨⟨rb, rc, rlow⟩, rres⟩ :=
        ihList (unmakeMove r.2) (some m)
          (-(negamax (depth - 1) (makeMoveB s.board m) (s.historyCount + 1))) hgood' hwf'
      rw [hub] at rb rres
      rw [huc] at rc rlow rres
      exact ⟨⟨rb, rc, fun j hj => (rlow j hj).trans (hlowS2 j hj)⟩, rres⟩
    · obtain ⟨⟨rb, rc, rlow⟩, rres⟩ := ihList (unmakeMove r.2) bm bs hgood' hwf'
      rw [hub] at rb rres
      rw [huc] at rc rlow rres
      exact ⟨⟨rb, rc, fun j hj => (rlow j hj).trans (hlowS2 j hj)⟩, rres⟩

theorem getBestMoveLoop_spec (timeUp : Nat → Bool) :
    ∀ (depths : List Nat) (s : Engine) (bm : Option Int) (bs : Score),
      (∀ D ∈ depths, 1 ≤ D ∧ s.historyCount + (D : Int) ≤ 1024) →
      s.board.length = 64 → int8B s.board → 0 ≤ s.historyCount →
      (((getBestMoveLoop timeUp depths bm bs s).2.2.board = s.board ∧
        (getBestMoveLoop timeUp depths bm bs s).2.2.historyCount = s.historyCount) ∧
       ((getBestMoveLoop timeUp depths bm bs s).1,
         (getBestMoveLoop timeUp depths bm bs s).2.1) =
         bestAcc (completedPairs timeUp s.board s.historyCount depths) bm bs) := by
  intro depths
  induction depths with
  | nil => intro s bm bs hall hlen h8 hhc0; exact ⟨⟨rfl, rfl⟩, rfl⟩
  | cons D rest ih =>
    intro s bm bs hall hlen h8 hhc0
    obtain ⟨hD1, hDcap⟩ := hall D (List.mem_cons_self D rest)
    simp only [getBestMoveLoop, completedPairs]
    by_cases ht : timeUp D = true
    · rw [if_pos ht, if_pos ht]
      exact ⟨⟨rfl, rfl⟩, rfl⟩
    · rw [if_neg ht, if_neg ht]
      have hwfD : WfState s D := ⟨hlen, h8, hhc0, hDcap⟩
      obtain ⟨⟨gb, gc, glow⟩, gres⟩ :=
        getBestMoveGo_spec D hD1 (generateMoves s) s bm bs
          (fun m hm => goodMove_generateMovesB hm) hwfD
      have hrp : (generateMoves s).map
          (fun m => (m, -(negamax (D - 1) (makeMoveB s.board m) (s.historyCount + 1)))) =
          rootPairs D s.board s.historyCount := rfl
      rw [hrp] at gres
      set g := getBestMoveGo D (generateMoves s) bm bs s with hgdef
      obtain ⟨⟨rb, rc⟩, rres⟩ := ih g.2.2 g.1 g.2.1
        (by intro D' hD'; rw [gc]; exact hall D' (List.mem_cons_of_mem D hD'))
        (by rw [gb]; exact hlen) (by rw [gb]; exact h8) (by rw [gc]; exact hhc0)
      rw [gb] at rb
      rw [gc] at rc
      rw [gb, gc] at rres
      refine ⟨⟨rb, rc⟩, ?_⟩
      rw [bestAcc_append, ← gres]
      exact rres

theorem getBestMove_spec (timeUp : Nat → Bool) (s : Engine)
    (hlen : s.board.length = 64) (h8 : int8B s.board)
    (hhc0 : 0 ≤ s.historyCount) (hcap : s.historyCount + 4 ≤ 1024) :
    ((getBestMove timeUp s).2.board = s.board ∧
     (getBestMove timeUp s).2.historyCount = s.historyCount) ∧
    (getBestMove timeUp s).1 =
      (bestAcc (completedPairs timeUp s.board s.historyCount [1, 2, 3, 4])
        none Score.negInf).1 := by
  obtain ⟨⟨rb, rc⟩, rres⟩ := getBestMoveLoop_spec timeUp [1, 2, 3, 4] s none Score.negInf
    (by
      intro D hD
      simp only [List.mem_cons, List.mem_singleton] at hD
      rcases hD with rfl | rfl | rfl | rfl | h
      · exact ⟨by omega, by omega⟩
      · exact ⟨by omega, by omega⟩
      · exact ⟨by omega, by omega⟩
      · exact ⟨by omega, by omega⟩
      · simp at h)
    hlen h8 hhc0
  exact ⟨⟨rb, rc⟩, congrArg Prod.fst rres⟩

/-! ## First-strict-improvement characterisation of the root fold -/

/-- The maximum of the scores of a `(move, score)` list (`-Infinity` when
empty). -/
def maxScore (l : List (Int × Score)) : Score :=
  l.foldr (fun p acc => max p.2 acc) Score.negInf

theorem bestAcc_char :
    ∀ (l : List (Int × Score)) (bm : Option Int) (bs : Score),
      (maxScore l ≤ bs → bestAcc l bm bs = (bm, bs)) ∧
      (bs < maxScore l → bestAcc l bm bs =
        ((l.find? (fun p => p.2 == maxScore l)).map Prod.fst, maxScore l)) := by
  intro l
  induction l with
  | nil =>
    intro bm bs
    refine ⟨fun _ => rfl, fun h => ?_⟩
    exact absurd (lt_of_lt_of_le h (Score.negInf_le bs)) (lt_irrefl _)
  | cons p rest ih =>
    intro bm bs
    obtain ⟨m, sc⟩ := p
    have hmax : maxScore ((m, sc) :: rest) = max sc (maxScore rest) := rfl
    constructor
    · intro h
      rw [hmax] at h
      simp only [bestAcc]
      rw [if_neg (not_lt.mpr (le_trans (le_max_left _ _) h))]
      exact (ih bm bs).1 (le_trans (le_max_right _ _) h)
    · intro h
      rw [hmax] at h
      simp only [bestAcc]
      by_cases hsc : bs < sc
      · rw [if_pos hsc]
        rcases le_or_lt (maxScore rest) sc with hr | hr
        · have hM : maxScore ((m, sc) :: rest) = sc := by
            rw [hmax]; exact max_eq_left hr
          rw [(ih (some m) sc).1 hr, hM,
            List.find?_cons_of_pos _ (by simp)]
          rfl
        · have hM : maxScore ((m, sc) :: rest) = maxScore rest := by
            rw [hmax]; exact max_eq_right (le_of_lt hr)
          rw [(ih (some m) sc).2 hr, hM,
            List.find?_cons_of_neg _ (by simp; exact ne_of_lt hr)]
      · rw [if_neg hsc]
        have hr : bs < maxScore rest := by
          rcases lt_max_iff.mp h with h' | h'
          · exact absurd h' hsc
          · exact h'
        have hscr : sc < maxScore rest := lt_of_le_of_lt (not_lt.mp hsc) hr
        have hM : maxScore ((m, sc) :: rest) = maxScore rest := by
          rw [hmax]; exact max_eq_right (le_of_lt hscr)
        rw [(ih bm bs).2 hr, hM,
          List.find?_cons_of_neg _ (by simp; exact ne_of_lt hscr)]

/-! ## Reachability facts and the history-stack capacity boundary -/

theorem tmod_two_eq_zero_iff (n : Int) : n.tmod 2 = 0 ↔ 2 ∣ n :=
  ⟨Int.dvd_of_tmod_eq_zero, Int.tmod_eq_zero_of_dvd⟩

theorem isWhiteTurn_iff (hc : Int) : isWhiteTurn hc = true ↔ 2 ∣ hc := by
  unfold isWhiteTurn
  rw [beq_iff_eq]
  exact tmod_two_eq_zero_iff hc

theorem isWhiteTurn_even {hc : Int} (h : 2 ∣ hc) : isWhiteTurn hc = true :=
  (isWhiteTurn_iff hc).mpr h

theorem isWhiteTurn_odd {hc : Int} (h : ¬ 2 ∣ hc) : isWhiteTurn hc = false := by
  rw [← Bool.not_eq_true, isWhiteTurn_iff]
  exact h

theorem reachable_wf {s : Engine} (h : Reachable s) :
    s.board.length = 64 ∧ int8B s.board ∧ 0 ≤ s.historyCount := by
  induction h with
  | init =>
    refine ⟨by rfl, ?_, by decide⟩
    show int8B initialBoard
    unfold int8B
    decide
  | step s m hr hm ih =>
    refine ⟨?_, int8B_makeMoveB ih.2.1 m, ?_⟩
    · show (makeMoveB s.board m).length = 64
      rw [length_makeMoveB]; exact ih.1
    · show (0 : Int) ≤ s.historyCount + 1
      have := ih.2.2; omega

/-- Repeating the knight manoeuvre Ng1–f3, Nb8–c6, Nf3–g1, Nc6–b8 any number
of times keeps the initial board and adds four to the history count, so
positions with arbitrarily large history counts are reachable. -/
theorem reachable_cycle (k : Nat) :
    ∃ s : Engine, Reachable s ∧ s.board = initialBoard ∧
      s.historyCount = 4 * (k : Int) := by
  induction k with
  | zero => exact ⟨initialEngine, Reachable.init, rfl, by decide⟩
  | succ k ih =>
    obtain ⟨s0, h0, hb0, hc0⟩ := ih
    have hgen0 : generateMoves s0 = generateMovesB initialBoard true := by
      unfold generateMoves
      rw [hb0, isWhiteTurn_even (by rw [hc0]; exact ⟨2 * k, by ring⟩)]
    have hm1 : (2942 : Int) ∈ generateMoves s0 := by rw [hgen0]; decide
    set s1 := makeMove s0 2942 with hs1
    have hb1 : s1.board = makeMoveB initialBoard 2942 := by
      show makeMoveB s0.board 2942 = _; rw [hb0]
    have hc1 : s1.historyCount = 4 * (k : Int) + 1 := by
      show s0.historyCount + 1 = _; rw [hc0]; try omega
    have hgen1 : generateMoves s1 = generateMovesB (makeMoveB initialBoard 2942) false := by
      unfold generateMoves
      rw [hb1, isWhiteTurn_odd (by rw [hc1]; intro ⟨c, hc⟩; omega)]
    have hm2 : (1153 : Int) ∈ generateMoves s1 := by rw [hgen1]; decide
    set s2 := makeMove s1 1153 with hs2
    have hb2 : s2.board = makeMoveB (makeMoveB initialBoard 2942) 1153 := by
      show makeMoveB s1.board 1153 = _; rw [hb1]
    have hc2 : s2.historyCount = 4 * (k : Int) + 2 := by
      show s1.historyCount + 1 = _; rw [hc1]; try omega
    have hgen2 : generateMoves s2 =
        generateMovesB (makeMoveB (makeMoveB initialBoard 2942) 1153) true := by
      unfold generateMoves
      rw [hb2, isWhiteTurn_even (by rw [hc2]; exact ⟨2 * k + 1, by ring⟩)]
    have hm3 : (4013 : Int) ∈ generateMoves s2 := by rw [hgen2]; decide
    set s3 := makeMove s2 4013 with hs3
    have hb3 : s3.board =
        makeMoveB (makeMoveB (makeMoveB initialBoard 2942) 1153) 4013 := by
      show makeMoveB s2.board 4013 = _; rw [hb2]
    have hc3 : s3.historyCount = 4 * (k : Int) + 3 := by
      show s2.historyCount + 1 = _; rw [hc2]; try omega
    have hgen3 : generateMoves s3 =
        generateMovesB (makeMoveB (makeMoveB (makeMoveB initialBoard 2942) 1153) 4013)
          false := by
      unfold generateMoves
      rw [hb3, isWhiteTurn_odd (by rw [hc3]; intro ⟨c, hc⟩; omega)]
    have hm4 : (82 : Int) ∈ generateMoves s3 := by rw [hgen3]; decide
    refine ⟨makeMove s3 82, ?_, ?_, ?_⟩
    · exact Reachable.step _ _ (Reachable.step _ _ (Reachable.step _ _
        (Reachable.step _ _ h0 hm1) hm2) hm3) hm4
    · show makeMoveB s3.board 82 = initialBoard
      rw [hb3]; decide
    · show s3.historyCount + 1 = _
      rw [hc3]; push_cast; ring

/-! ## Claim theorems -/

/-- C1 (counterexample): the round-trip claim fails as stated.  A position
with the initial board and `historyCount = 1024` is reachable by repeating a
knight manoeuvre 256 times; there the push of `makeMove` is silently dropped
by the full `Int32Array(1024)` history, `unmakeMove` pops `undefined`
(decoded as move 0), and the board is not restored: square a8 (index 0) ends
holding `0` although it held the black rook (`4`) before. -/
theorem c1_roundtrip_counterexample :
    ∃ s : Engine, Reachable s ∧ (2942 : Int) ∈ generateMoves s ∧
      s.historyCount = 1024 ∧
      (unmakeMove (makeMove s 2942)).historyCount = s.historyCount ∧
      boardGet s.board 0 = 4 ∧
      boardGet (unmakeMove (makeMove s 2942)).board 0 = 0 ∧
      (unmakeMove (makeMove s 2942)).board ≠ s.board := by
  obtain ⟨s, hre, hb, hc⟩ := reachable_cycle 256
  have hc' : s.historyCount = 1024 := by rw [hc]; norm_num
  have hgen : generateMoves s = generateMovesB initialBoard true := by
    unfold generateMoves
    rw [hb, isWhiteTurn_even (by rw [hc']; exact ⟨512, by norm_num⟩)]
  have hm : (2942 : Int) ∈ generateMoves s := by rw [hgen]; decide
  have hread : historyGet (historySet s.moveHistory s.historyCount 2942)
      (s.historyCount + 1 - 1) = 0 := by
    unfold historyGet
    rw [dif_neg]
    omega
  have hboard : (unmakeMove (makeMove s 2942)).board =
      unmakeMoveB (makeMoveB initialBoard 2942) 0 := by
    show unmakeMoveB (makeMoveB s.board 2942)
      (historyGet (historySet s.moveHistory s.historyCount 2942)
        (s.historyCount + 1 - 1)) = _
    rw [hread, hb]
  have hcnt : (unmakeMove (makeMove s 2942)).historyCount = s.historyCount := by
    show s.historyCount + 1 - 1 = s.historyCount
    omega
  refine ⟨s, hre, hm, hc', hcnt, by rw [hb]; decide, by rw [hboard]; decide, ?_⟩
  rw [hboard, hb]
  decide

/-- C1 (amended): for every reachable position and every move the generator
yields there, provided the history count is below the 1024-entry capacity of
the move-history stack, `makeMove` followed by `unmakeMove` restores all 64
board entries and the history count exactly. -/
theorem c1_roundtrip_amended (s : Engine) (m : Int) (hre : Reachable s)
    (hm : m ∈ generateMoves s) (hcap : s.historyCount < 1024) :
    (unmakeMove (makeMove s m)).board = s.board ∧
    (unmakeMove (makeMove s m)).historyCount = s.historyCount := by
  obtain ⟨hlen, h8, hhc0⟩ := reachable_wf hre
  have hres := unmake_restore (s := s) (m := m) (u := makeMove s m) rfl rfl
    (historyGet_historySet_self s.moveHistory s.historyCount m hhc0 hcap)
    hlen h8 (goodMove_generateMovesB hm)
  exact ⟨hres.1, hres.2.1⟩

theorem c1_roundtrip_amended_witness :
    (2942 : Int) ∈ generateMoves initialEngine ∧
    initialEngine.historyCount < 1024 ∧
    (unmakeMove (makeMove initialEngine 2942)).board = initialEngine.board ∧
    (unmakeMove (makeMove initialEngine 2942)).historyCount =
      initialEngine.historyCount := by
  have hm : (2942 : Int) ∈ generateMoves initialEngine := by decide
  have h := c1_roundtrip_amended initialEngine 2942 Reachable.init hm (by decide)
  exact ⟨hm, by decide, h.1, h.2⟩

/-- C2 (amended): for every engine state whose 1024-slot history stack has
room for the `d` pushes the search performs (historyCount + d ≤ 1024), the
alpha-beta `search` called with the full window `(-Infinity, Infinity)`
returns exactly the score of the brute-force full-width `negamax` of the same
depth over the same move generator and evaluator: pruning never changes the
returned score. At or beyond the stack capacity the equality fails
(`c2_counterexample`). -/
theorem c2_alphabeta_equals_negamax (s : Engine) (d : Nat)
    (hlen : s.board.length = 64) (h8 : int8B s.board)
    (hhc0 : 0 ≤ s.historyCount) (hcap : s.historyCount + d ≤ 1024) :
    (search d Score.negInf Score.posInf s).1 = negamax d s.board s.historyCount :=
  search_full_window d s ⟨hlen, h8, hhc0, hcap⟩

theorem c2_alphabeta_equals_negamax_witness :
    initialEngine.board.length = 64 ∧ int8B initialEngine.board ∧
    (0 : Int) ≤ initialEngine.historyCount ∧
    initialEngine.historyCount + (2 : Nat) ≤ 1024 ∧
    (search 2 Score.negInf Score.posInf initialEngine).1 =
      negamax 2 initialEngine.board initialEngine.historyCount := by
  have h8 : int8B initialEngine.board := by
    show int8B initialBoard
    unfold int8B
    decide
  exact ⟨by rfl, h8, by decide, by decide,
    c2_alphabeta_equals_negamax initialEngine 2 (by rfl) h8 (by decide) (by decide)⟩

/-- The overflowed state that refutes C2 and C7 as stated: the initial board
with the move-history stack already full (historyCount = 1024, the capacity
of the Int32Array). Its board and history count are also realized by a
reachable state, via the knight manoeuvre of `reachable_cycle`. -/
def overflowEngine : Engine :=
  { board := initialBoard, moveHistory := fun _ => 0, historyCount := 1024 }

set_option maxRecDepth 8192 in
set_option maxHeartbeats 4000000 in
/-- C2 (counterexample): at the initial board with the history stack full
(historyCount = 1024, a board and history count also attained by a reachable
state), the full-window alpha-beta search at depth 1 returns 500 while the
full-width negamax of the same depth returns 20. Each root push is silently
dropped, so the matching pop reads undefined, decodes it as move 0, deletes
the black rook on a8 and leaves the root move applied; later iterations then
score a corrupted board, and the claimed equality fails. -/
theorem c2_counterexample :
    (∃ s : Engine, Reachable s ∧ s.board = overflowEngine.board ∧
      s.historyCount = overflowEngine.historyCount) ∧
    (search 1 Score.negInf Score.posInf overflowEngine).1 = Score.fin 500 ∧
    negamax 1 overflowEngine.board overflowEngine.historyCount = Score.fin 20 ∧
    (search 1 Score.negInf Score.posInf overflowEngine).1 ≠
      negamax 1 overflowEngine.board overflowEngine.historyCount := by
  refine ⟨?_, by decide⟩
  obtain ⟨s, hre, hb, hc⟩ := reachable_cycle 256
  exact ⟨s, hre, hb, by rw [hc]; decide⟩

/-- The position used to refute C3: White Rc2, Pb2, Pd2 against Black Nc6,
Pd7 (squares 50, 49, 51, 18, 11), White to move, fresh history. -/
def c3Board : Board :=
  [0, 0, 0, 0, 0, 0, 0, 0,
   0, 0, 0, 1, 0, 0, 0, 0,
   0, 0, 2, 0, 0, 0, 0, 0,
   0, 0, 0, 0, 0, 0, 0, 0,
   0, 0, 0, 0, 0, 0, 0, 0,
   0, 0, 0, 0, 0, 0, 0, 0,
   0, 9, 12, 9, 0, 0, 0, 0,
   0, 0, 0, 0, 0, 0, 0, 0]

def c3Engine : Engine :=
  { board := c3Board, moveHistory := fun _ => 0, historyCount := 0 }

/-- A time oracle under which depths 1 and 2 complete and the check fires
before depth 3. -/
def c3TimeUp : Nat → Bool := fun depth => decide (3 ≤ depth)

set_option maxHeartbeats 8000000 in
/-- C3 (counterexample): the ordinary deepening run on `c3Engine` completes
depths 1 and 2 and then aborts, yet `getBestMove` returns move 9394 (the
rook capture c2xc6), which does not maximise the depth-2 root score: the
code's own depth-2 root computation values move 1714 (Rc2–c5) at 260 but the
returned move at only 100.  The depth-1 score of the capture (600) was never
beaten because `bestScore` is not reset between depths. -/
theorem c3_deepest_depth_counterexample :
    (getBestMove c3TimeUp c3Engine).1 = some 9394 ∧
    c3TimeUp 1 = false ∧ c3TimeUp 2 = false ∧ c3TimeUp 3 = true ∧
    (9394 : Int) ∈ generateMoves c3Engine ∧
    (1714 : Int) ∈ generateMoves c3Engine ∧
    -(search (2 - 1) Score.negInf Score.posInf (makeMove c3Engine 1714)).1 =
      Score.fin 260 ∧
    -(search (2 - 1) Score.negInf Score.posInf (makeMove c3Engine 9394)).1 =
      Score.fin 100 ∧
    -(search (1 - 1) Score.negInf Score.posInf (makeMove c3Engine 9394)).1 =
      Score.fin 600 := by
  refine ⟨by decide, by decide, by decide, by decide, by decide, by decide,
    by decide, by decide, by decide⟩

/-- C3 (amended): the move `getBestMove` returns is the earliest root
`(move, score)` evaluation, across all completed depths in order, attaining
the maximum pruning-free negamax root score over the whole run (`none` when
no score ever exceeds `-Infinity`); because `bestScore` carries over between
depths, this need not be a maximiser of the deepest completed depth alone. -/
theorem c3_running_best_amended (timeUp : Nat → Bool) (s : Engine)
    (hlen : s.board.length = 64) (h8 : int8B s.board)
    (hhc0 : 0 ≤ s.historyCount) (hcap : s.historyCount + 4 ≤ 1024) :
    (getBestMove timeUp s).1 =
      (if maxScore (completedPairs timeUp s.board s.historyCount [1, 2, 3, 4]) =
          Score.negInf then none
       else ((completedPairs timeUp s.board s.historyCount [1, 2, 3, 4]).find?
          (fun p => p.2 ==
            maxScore (completedPairs timeUp s.board s.historyCount [1, 2, 3, 4]))).map
          Prod.fst) := by
  obtain ⟨-, hres⟩ := getBestMove_spec timeUp s hlen h8 hhc0 hcap
  rw [hres]
  rcases le_or_lt (maxScore (completedPairs timeUp s.board s.historyCount [1, 2, 3, 4]))
    Score.negInf with h | h
  · have hM := (Score.le_negInf_iff _).mp h
    rw [if_pos hM,
      (bestAcc_char (completedPairs timeUp s.board s.historyCount [1, 2, 3, 4])
        none Score.negInf).1 (le_of_eq hM)]
  · have hM : maxScore (completedPairs timeUp s.board s.historyCount [1, 2, 3, 4]) ≠
        Score.negInf := by
      intro he; rw [he] at h; exact lt_irrefl _ h
    rw [if_neg hM,
      (bestAcc_char (completedPairs timeUp s.board s.historyCount [1, 2, 3, 4])
        none Score.negInf).2 h]

theorem c3_running_best_amended_witness :
    initialEngine.board.length = 64 ∧ int8B initialEngine.board ∧
    (0 : Int) ≤ initialEngine.historyCount ∧
    initialEngine.historyCount + 4 ≤ 1024 ∧
    (getBestMove (fun _ => true) initialEngine).1 = none := by
  have h8 : int8B initialEngine.board := by
    show int8B initialBoard
    unfold int8B
    decide
  have h := c3_running_best_amended (fun _ => true) initialEngine (by rfl) h8
    (by decide) (by decide)
  refine ⟨by rfl, h8, by decide, by decide, ?_⟩
  rw [h]
  decide

/-- An otherwise empty board with a white bishop on a2 (square 48). -/
def c4Board : Board :=
  [0, 0, 0, 0, 0, 0, 0, 0,
   0, 0, 0, 0, 0, 0, 0, 0,
   0, 0, 0, 0, 0, 0, 0, 0,
   0, 0, 0, 0, 0, 0, 0, 0,
   0, 0, 0, 0, 0, 0, 0, 0,
   0, 0, 0, 0, 0, 0, 0, 0,
   11, 0, 0, 0, 0, 0, 0, 0,
   0, 0, 0, 0, 0, 0, 0, 0]

def c4Engine : Engine :=
  { board := c4Board, moveHistory := fun _ => 0, historyCount := 0 }

/-- C4 (code bug evidence): sliding-move generation wraps around the board
edge.  With only a white bishop on a2 (square 48, file 0), the generator
yields move 2544 = a2→h4 (destination 39, file 7): stepping by −9 from the
a-file wraps to the h-file of a different diagonal, because the "wrapped
around the board" check compares rank/file deltas against 7, a bound they
can never exceed. -/
theorem c4_sliding_wraps :
    (2544 : Int) ∈ generateMoves c4Engine ∧
    boardGet c4Board 48 = 11 ∧ getPieceType 11 = 3 ∧
    decodeMove 2544 = (48, 39, 0) ∧
    (48 : Int) % 8 = 0 ∧ (39 : Int) % 8 = 7 := by
  refine ⟨by decide, by decide, by decide, by decide, by decide, by decide⟩

/-- C6: for any two states with the same board whose history counts differ
by one (the side to move flipped), `evaluate` returns exactly opposite
values — the negamax sign convention. -/
theorem c6_evaluate_antisymmetric (s t : Engine)
    (hb : t.board = s.board) (hc : t.historyCount = s.historyCount + 1) :
    evaluate t = -(evaluate s) := by
  unfold evaluate evaluateB
  rw [hb, hc]
  by_cases hpar : 2 ∣ s.historyCount
  · rw [isWhiteTurn_even hpar, isWhiteTurn_odd (by obtain ⟨c, hc2⟩ := hpar; omega)]
    simp
  · rw [isWhiteTurn_odd hpar, isWhiteTurn_even (by omega)]
    simp

def c6Flip : Engine :=
  { board := initialBoard, moveHistory := fun _ => 0, historyCount := 1 }

theorem c6_evaluate_antisymmetric_witness :
    c6Flip.board = initialEngine.board ∧
    c6Flip.historyCount = initialEngine.historyCount + 1 ∧
    evaluate c6Flip = -(evaluate initialEngine) :=
  ⟨rfl, by decide, c6_evaluate_antisymmetric initialEngine c6Flip rfl (by decide)⟩

/-- C7 (amended): `getBestMove` never mutates the position it searches: on
return the board and the history count (hence the side to move) equal their
values at entry, for every time-check oracle and every state whose 1024-slot
history stack has room for the at most four pushes a search holds at once
(historyCount + 4 ≤ 1024). With the stack already full the board is mutated
on return (`c7_counterexample`). -/
theorem c7_getBestMove_preserves_state (timeUp : Nat → Bool) (s : Engine)
    (hlen : s.board.length = 64) (h8 : int8B s.board)
    (hhc0 : 0 ≤ s.historyCount) (hcap : s.historyCount + 4 ≤ 1024) :
    (getBestMove timeUp s).2.board = s.board ∧
    (getBestMove timeUp s).2.historyCount = s.historyCount :=
  (getBestMove_spec timeUp s hlen h8 hhc0 hcap).1

theorem c7_getBestMove_preserves_state_witness :
    initialEngine.board.length = 64 ∧ int8B initialEngine.board ∧
    (0 : Int) ≤ initialEngine.historyCount ∧
    initialEngine.historyCount + 4 ≤ 1024 ∧
    ((getBestMove (fun _ => false) initialEngine).2.board = initialEngine.board ∧
     (getBestMove (fun _ => false) initialEngine).2.historyCount =
       initialEngine.historyCount) := by
  have h8 : int8B initialEngine.board := by
    show int8B initialBoard
    unfold int8B
    decide
  exact ⟨by rfl, h8, by decide, by decide,
    c7_getBestMove_preserves_state (fun _ => false) initialEngine (by rfl) h8
      (by decide) (by decide)⟩

/-- A time-check oracle that lets only the depth-1 pass of `getBestMove`
run: it reports time up for every depth from 2 on. -/
def c7TimeUpOne : Nat → Bool := fun depth => decide (2 ≤ depth)

set_option maxRecDepth 8192 in
set_option maxHeartbeats 4000000 in
/-- C7 (counterexample): at the initial board with the history stack full
(historyCount = 1024, a board and history count also attained by a reachable
state), `getBestMove` under a time check that stops it after the depth-1
pass returns with the board mutated: the black rook on a8 (entry value 4)
has been overwritten with 0 and the root moves are left applied, because
each root push is dropped and the matching pop decodes undefined as move 0
instead of undoing the move. -/
theorem c7_counterexample :
    (∃ s : Engine, Reachable s ∧ s.board = overflowEngine.board ∧
      s.historyCount = overflowEngine.historyCount) ∧
    c7TimeUpOne 1 = false ∧
    boardGet overflowEngine.board 0 = 4 ∧
    boardGet (getBestMove c7TimeUpOne overflowEngine).2.board 0 = 0 ∧
    (getBestMove c7TimeUpOne overflowEngine).2.board ≠ overflowEngine.board := by
  refine ⟨?_, by decide⟩
  obtain ⟨s, hre, hb, hc⟩ := reachable_cycle 256
  exact ⟨s, hre, hb, by rw [hc]; decide⟩

/-- Black Kh8, White Kf7 and Qg6 (squares 7, 13, 22), Black to move: a
standard stalemate position. -/
def c8Board : Board :=
  [0, 0, 0, 0, 0, 0, 0, 6,
   0, 0, 0, 0, 0, 14, 0, 0,
   0, 0, 0, 0, 0, 0, 13, 0,
   0, 0, 0, 0, 0, 0, 0, 0,
   0, 0, 0, 0, 0, 0, 0, 0,
   0, 0, 0, 0, 0, 0, 0, 0,
   0, 0, 0, 0, 0, 0, 0, 0,
   0, 0, 0, 0, 0, 0, 0, 0]

def c8Engine : Engine :=
  { board := c8Board, moveHistory := fun _ => 0, historyCount := 1 }

/-- C8 (code bug evidence): at the stalemate position `c8Board` with Black
to move, the evaluator and the search's depth-0 leaf return the plain
material sum −900 instead of the required 0; no checkmate/stalemate/
insufficient-material override exists anywhere in the engine, and the
generator still yields (pseudo-legal) moves for the stalemated side. -/
theorem c8_stalemate_scores_material :
    evaluateB c8Board 1 = -900 ∧
    (search 0 Score.negInf Score.posInf c8Engine).1 = Score.fin (-900) ∧
    evaluateB c8Board 1 ≠ 0 ∧
    generateMoves c8Engine ≠ [] := by
  refine ⟨by decide, by decide, by decide, by decide⟩

/-- C9 (code bug evidence): calling `unmakeMove` on a fresh engine (empty
history) is not fatal: it silently sets `historyCount` to −1, overwrites
square a8 (which held the black rook, code 4) with 0, and the engine keeps
operating as if the state were valid — the generator still produces moves
(for Black, since `-1 % 2 !== 0`). -/
theorem c9_underflow_silent :
    (unmakeMove initialEngine).historyCount = -1 ∧
    boardGet initialEngine.board 0 = 4 ∧
    boardGet (unmakeMove initialEngine).board 0 = 0 ∧
    isWhiteTurn (unmakeMove initialEngine).historyCount = false ∧
    generateMoves (unmakeMove initialEngine) ≠ [] := by
  refine ⟨by decide, by decide, by decide, by decide, by decide⟩

/-- C10: move encoding is lossless on its intended domain: for sources and
destinations in 0..63 and a destination piece code in 0..14, `decodeMove`
recovers from `encodeMove` exactly the source, destination and captured
piece, and the 6-bit/6-bit/piece-code packing is injective. -/
theorem c10_encode_decode (b : Board) (f t : Nat)
    (hf : f < 64) (ht : t < 64)
    (_hc0 : 0 ≤ boardGet b t) (_hc1 : boardGet b t ≤ 14) :
    decodeMove (encodeMove b f t) = ((f : Int), (t : Int), boardGet b t) ∧
    ∀ (b' : Board) (f' t' : Nat), f' < 64 → t' < 64 →
      encodeMove b f t = encodeMove b' f' t' →
      (f : Int) = f' ∧ (t : Int) = t' ∧ boardGet b t = boardGet b' t' := by
  constructor
  · exact decodeMove_encode f t (boardGet b t) hf ht
  · intro b' f' t' hf' ht' he
    have h1 := decodeMove_encode f t (boardGet b t) hf ht
    have h2 := decodeMove_encode f' t' (boardGet b' t') hf' ht'
    have h3 : ((f : Int), (t : Int), boardGet b t) =
        ((f' : Int), (t' : Int), boardGet b' t') := by
      rw [← h1, ← h2]
      exact congrArg decodeMove he
    simpa using h3

theorem c10_encode_decode_witness :
    (48 : Nat) < 64 ∧ (0 : Nat) < 64 ∧
    0 ≤ boardGet initialBoard 0 ∧ boardGet initialBoard 0 ≤ 14 ∧
    decodeMove (encodeMove initialBoard 48 0) = (48, 0, 4) := by
  have h := (c10_encode_decode initialBoard 48 0 (by norm_num) (by norm_num)
    (by decide) (by decide)).1
  refine ⟨by norm_num, by norm_num, by decide, by decide, ?_⟩
  exact h.trans (by decide)
